import Mathlib

/-!
Verification development for the `matrixlib` repository.

The repository contains two C++ source files exposing dense linear algebra
over `std::vector<std::vector<double>>`:

* `src/matrixlib/src/matrix.cpp` — free functions (`matrix_multiply`,
  `inverse`, `determinant`, `dot_product`, `add`, `subtract`, `solve`,
  `transpose`, …), embedded below in namespace `mlib`;
* `src/matrix_ops.cpp` — a `Matrix` class with methods (`multiply`,
  `determinant` by cofactor expansion, `inverse` via an augmented matrix)
  plus free vector functions, embedded below in namespace `mops`.

Modelling conventions:
* `double` is modelled as `ℚ` (exact arithmetic); the literal `1e-10`
  becomes `tol = 1/10^10`.
* a `std::vector<std::vector<double>>` becomes `List (List ℚ)`;
  out-of-range reads (undefined behaviour in the source) are modelled by
  `List.getD` with default `0` / `[]` — all theorems below only ever
  evaluate in-range accesses.
* `throw` becomes an `Except Err` result, classifying the two error kinds
  of the source (`std::invalid_argument` on dimension mismatch,
  the "Matrix is singular" errors).
* imperative loops become structural recursion on the number of remaining
  iterations; in-place row updates become rebuilding of the row list.
  Elimination loops carry the caller's argument(s) verbatim in a `caller`
  field of the loop state, mirroring the C++ locals
  (`const Matrix& a`, `Matrix temp = a;`): the loops only ever rebuild
  `temp`/`result`, never `caller`.
-/

/-- The two error kinds of the source: dimension mismatch and singularity. -/
inductive Err where
  | dim      : Err
  | singular : Err
deriving DecidableEq

instance {ε α : Type} [DecidableEq ε] [DecidableEq α] : DecidableEq (Except ε α) := fun x y =>
  match x, y with
  | .ok a, .ok b => if h : a = b then .isTrue (by rw [h]) else .isFalse (by simp [h])
  | .error a, .error b => if h : a = b then .isTrue (by rw [h]) else .isFalse (by simp [h])
  | .ok _, .error _ => .isFalse (by simp)
  | .error _, .ok _ => .isFalse (by simp)

abbrev Mat : Type := List (List ℚ)
abbrev Vec : Type := List ℚ

/-- The `1e-10` pivot / determinant tolerance used throughout the source. -/
def tol : ℚ := 1 / 10000000000

/-- `std::abs` on the `double` model. -/
def fabs (x : ℚ) : ℚ := if x < 0 then -x else x

theorem fabs_eq_abs (x : ℚ) : fabs x = |x| := by
  unfold fabs
  rcases lt_or_le x 0 with h | h
  · rw [if_pos h, abs_of_neg h]
  · rw [if_neg (not_lt.mpr h), abs_of_nonneg h]

/-- Row `i` of a matrix (`a[i]`; out of range is UB in the source). -/
def getRow (m : Mat) (i : Nat) : List ℚ := m.getD i []

/-- Element `a[i][j]` (out of range is UB in the source). -/
def entry (m : Mat) (i j : Nat) : ℚ := (getRow m i).getD j 0

/-- `a[0].size()` — the column count the source reads off the first row. -/
def cols0 (m : Mat) : Nat := (m.headD []).length

/-- Map over a list with the element index, starting at index `s`.
Translation device for C++ loops that rebuild a vector in place. -/
def idxMapFrom (f : Nat → α → β) : Nat → List α → List β
  | _, [] => []
  | s, a :: l => f s a :: idxMapFrom f (s + 1) l

/-- Map over a list with the element index. -/
def idxMap (f : Nat → α → β) (l : List α) : List β := idxMapFrom f 0 l

theorem length_idxMapFrom (f : Nat → α → β) :
    ∀ (s : Nat) (l : List α), (idxMapFrom f s l).length = l.length := by
  intro s l
  induction l generalizing s with
  | nil => rfl
  | cons a l ih => simp [idxMapFrom, ih]

theorem length_idxMap (f : Nat → α → β) (l : List α) :
    (idxMap f l).length = l.length := length_idxMapFrom f 0 l

theorem getD_idxMapFrom (f : Nat → α → α) :
    ∀ (s j : Nat) (l : List α) (d : α),
      (idxMapFrom f s l).getD j d = if j < l.length then f (s + j) (l.getD j d) else d := by
  intro s j l
  induction l generalizing s j with
  | nil => simp [idxMapFrom]
  | cons a l ih =>
    intro d
    cases j with
    | zero => simp [idxMapFrom]
    | succ j =>
      simp only [idxMapFrom, List.getD_cons_succ, ih (s + 1) j, List.length_cons]
      have h1 : s + 1 + j = s + (j + 1) := by omega
      rw [h1]
      exact if_congr (by omega) rfl rfl

theorem getD_idxMap (f : Nat → α → α) (j : Nat) (l : List α) (d : α) :
    (idxMap f l).getD j d = if j < l.length then f j (l.getD j d) else d := by
  simpa using getD_idxMapFrom f 0 j l d

theorem idxMapFrom_congr {f g : Nat → α → β} :
    ∀ (s : Nat) (l : List α),
      (∀ j a, j < l.length → a = l.getD j a → f (s + j) a = g (s + j) a) →
      idxMapFrom f s l = idxMapFrom g s l := by
  intro s l
  induction l generalizing s with
  | nil => intro _; rfl
  | cons a l ih =>
    intro h
    simp only [idxMapFrom, List.cons.injEq]
    constructor
    · simpa using h 0 a (by simp) (by simp)
    · refine ih (s + 1) ?_
      intro j b hj hb
      have := h (j + 1) b (by simpa using Nat.succ_lt_succ hj) (by simpa using hb)
      have harith : s + (j + 1) = s + 1 + j := by omega
      rw [harith] at this
      exact this

theorem idxMapFrom_idxMapFrom (f g : Nat → α → α) :
    ∀ (s : Nat) (l : List α),
      idxMapFrom f s (idxMapFrom g s l) = idxMapFrom (fun j a => f j (g j a)) s l := by
  intro s l
  induction l generalizing s with
  | nil => rfl
  | cons a l ih => simp [idxMapFrom, ih]

theorem idxMapFrom_id : ∀ (s : Nat) (l : List α),
    idxMapFrom (fun _ a => a) s l = l := by
  intro s l
  induction l generalizing s with
  | nil => rfl
  | cons a l ih => simp [idxMapFrom, ih]

namespace mlib

/-! ### `src/matrixlib/src/matrix.cpp` -/

/-- `matrix_multiply`: dimension check `a.empty() || b.empty() ||
a[0].size() != b.size()`, then the triple loop
`result[i][j] += a[i][k] * b[k][j]` over a zero-initialised
`a.size() × b[0].size()` result. -/
def matrix_multiply (a b : Mat) : Except Err Mat :=
  if a = [] ∨ b = [] ∨ cols0 a ≠ b.length then .error .dim
  else .ok ((List.range a.length).map (fun i =>
    (List.range (cols0 b)).map (fun j =>
      ((List.range b.length).map (fun k => entry a i k * entry b k j)).sum)))

/-- `add`: dimension check, then `result = a; result[i][j] += b[i][j]`
for `i < a.size()`, `j < a[0].size()`. -/
def add (a b : Mat) : Except Err Mat :=
  if a.length ≠ b.length ∨ a = [] ∨ b = [] ∨ cols0 a ≠ cols0 b then .error .dim
  else .ok (idxMap (fun i row =>
    idxMap (fun j x => if j < cols0 a then x + entry b i j else x) row) a)

/-- `subtract`: dimension check, then `result = a; result[i][j] -= b[i][j]`
for `i < a.size()`, `j < a[0].size()`. -/
def subtract (a b : Mat) : Except Err Mat :=
  if a.length ≠ b.length ∨ a = [] ∨ b = [] ∨ cols0 a ≠ cols0 b then .error .dim
  else .ok (idxMap (fun i row =>
    idxMap (fun j x => if j < cols0 a then x - entry b i j else x) row) a)

/-- `transpose`: empty check, then `result[j][i] = a[i][j]` into a
`a[0].size() × a.size()` result. -/
def transpose (a : Mat) : Except Err Mat :=
  if a = [] then .error .dim
  else .ok ((List.range (cols0 a)).map (fun j =>
    (List.range a.length).map (fun i => entry a i j)))

/-- `dot_product`: length check, then `result += a[i] * b[i]` over
`i < a.size()`. -/
def dot_product (a b : Vec) : Except Err ℚ :=
  if a.length ≠ b.length then .error .dim
  else .ok (((List.range a.length).map (fun i => a.getD i 0 * b.getD i 0)).sum)

/-- The identity matrix the source builds for `inverse`
(`result(n, Vector(n, 0.0))`, then `result[i][i] = 1.0`). -/
def identity (n : Nat) : Mat :=
  (List.range n).map (fun i => (List.range n).map (fun j => if i = j then (1 : ℚ) else 0))

/-- One forward-elimination step of `determinant` on the working copy:
`factor = temp[k][i] / pivot;  temp[k][j] -= factor * temp[i][j]`
for `k > i` and `j ≥ i` (the pivot row itself is left untouched). -/
def detStepTemp (i : Nat) (temp : Mat) : Mat :=
  let piv := entry temp i i
  let rowi := getRow temp i
  idxMap (fun k row =>
    if i < k then
      idxMap (fun j x => if i ≤ j then x - row.getD i 0 / piv * rowi.getD j 0 else x) row
    else row) temp

/-- State of the `determinant` call: the caller's matrix `a` (a `const`
reference, never written) and the working copy `temp`. -/
structure DetState where
  caller : Mat
  temp : Mat

/-- One loop iteration of `determinant` acting on the call state. -/
def detStep (i : Nat) (s : DetState) : DetState :=
  { caller := s.caller, temp := detStepTemp i s.temp }

/-- The `for (i = 0; i < n; ++i)` loop of `determinant`, by recursion on
the number of remaining iterations.  A pivot below tolerance returns `0.0`
immediately; otherwise `det *= pivot` and elimination proceeds. -/
def detLoop : Nat → Nat → DetState → ℚ → ℚ × DetState
  | 0, _, s, d => (d, s)
  | fuel + 1, i, s, d =>
    let piv := entry s.temp i i
    if fabs piv < tol then (0, s)
    else detLoop fuel (i + 1) (detStep i s) (d * piv)

/-- `determinant`: square/non-empty check, then forward elimination on a
working copy with `det` accumulating the pivots. -/
def determinant (a : Mat) : Except Err ℚ :=
  if a = [] ∨ a.length ≠ cols0 a then .error .dim
  else .ok (detLoop a.length 0 { caller := a, temp := a } 1).1

/-- Whether the fixed-position elimination of `determinant` encounters a
pivot of magnitude below the `1e-10` tolerance (the condition of its early
`return 0.0`). -/
def detHits : Nat → Nat → Mat → Bool
  | 0, _, _ => false
  | fuel + 1, i, temp =>
    if fabs (entry temp i i) < tol then true
    else detHits fuel (i + 1) (detStepTemp i temp)

/-- State of the `inverse` call: the caller's matrix (a `const` reference,
never written), the working copy `temp` and the accumulating `result`. -/
structure InvState where
  caller : Mat
  temp : Mat
  res : Mat

/-- One loop iteration of `inverse` (pivot already checked): normalize row
`i` of `temp` and `result` by the pivot, then for every `k ≠ i` subtract
`factor = temp[k][i]` times row `i` from row `k` of both. -/
def invStep (i : Nat) (s : InvState) : InvState :=
  let piv := entry s.temp i i
  let tempN := idxMap (fun k row => if k = i then row.map (· / piv) else row) s.temp
  let resN := idxMap (fun k row => if k = i then row.map (· / piv) else row) s.res
  let rowi := getRow tempN i
  let rowiR := getRow resN i
  { caller := s.caller
    temp := idxMap (fun k row =>
      if k ≠ i then idxMap (fun j x => x - row.getD i 0 * rowi.getD j 0) row else row) tempN
    res := idxMap (fun k row =>
      if k ≠ i then idxMap (fun j x => x - entry tempN k i * rowiR.getD j 0) row else row) resN }

/-- The main loop of `inverse`; `false` in the first component means the
`"Matrix is singular"` throw happened at the current pivot. -/
def invLoop : Nat → Nat → InvState → Bool × InvState
  | 0, _, s => (true, s)
  | fuel + 1, i, s =>
    if fabs (entry s.temp i i) < tol then (false, s)
    else invLoop fuel (i + 1) (invStep i s)

/-- `inverse`: square/non-empty check, start from `temp = a` and
`result = I`, run Gauss-Jordan elimination with the `1e-10` pivot check. -/
def inverse (a : Mat) : Except Err Mat :=
  if a = [] ∨ a.length ≠ cols0 a then .error .dim
  else
    let r := invLoop a.length 0 { caller := a, temp := a, res := identity a.length }
    if r.1 then .ok r.2.res else .error .singular

/-- State of the `solve` call: the caller's matrix and right-hand side
(`const` references, never written), the working copy `temp` and the
accumulating solution `result` (initialised to `b`). -/
structure SolveState where
  callerA : Mat
  callerB : Vec
  temp : Mat
  res : Vec

/-- One loop iteration of `solve` (pivot already checked): divide
`temp[i][j]` for `j ≥ i` and `result[i]` by the pivot, then for every
`k ≠ i` subtract `factor = temp[k][i]` times row `i` (columns `j ≥ i`)
and `factor * result[i]`. -/
def solveStep (i : Nat) (s : SolveState) : SolveState :=
  let piv := entry s.temp i i
  let tempN := idxMap (fun k row =>
    if k = i then idxMap (fun j x => if i ≤ j then x / piv else x) row else row) s.temp
  let resN := idxMap (fun k x => if k = i then x / piv else x) s.res
  let rowi := getRow tempN i
  let ri := resN.getD i 0
  { callerA := s.callerA
    callerB := s.callerB
    temp := idxMap (fun k row =>
      if k ≠ i then
        idxMap (fun j x => if i ≤ j then x - row.getD i 0 * rowi.getD j 0 else x) row
      else row) tempN
    res := idxMap (fun k x => if k ≠ i then x - entry tempN k i * ri else x) resN }

/-- The main loop of `solve`; `false` means the singular throw happened. -/
def solveLoop : Nat → Nat → SolveState → Bool × SolveState
  | 0, _, s => (true, s)
  | fuel + 1, i, s =>
    if fabs (entry s.temp i i) < tol then (false, s)
    else solveLoop fuel (i + 1) (solveStep i s)

/-- `solve`: dimension check `a.empty() || a.size() != a[0].size() ||
a.size() != b.size()`, then Gauss-Jordan elimination carrying `b`. -/
def solve (a : Mat) (b : Vec) : Except Err Vec :=
  if a = [] ∨ a.length ≠ cols0 a ∨ a.length ≠ b.length then .error .dim
  else
    let r := solveLoop a.length 0 { callerA := a, callerB := b, temp := a, res := b }
    if r.1 then .ok r.2.res else .error .singular

end mlib

namespace mops

/-! ### `src/matrix_ops.cpp` -/

/-- The `Matrix` class of `matrix_ops.cpp`: a data grid plus the
`rows`/`cols` fields the methods consult. -/
structure Matrix where
  data : Mat
  rows : Nat
  cols : Nat
deriving DecidableEq

/-- The `Matrix(const std::vector<std::vector<double>>& input)` constructor:
`rows = input.size(); cols = input[0].size(); data = input;` with **no**
validation of rectangularity.  (`input[0]` on an empty list is undefined
behaviour in the source; it is modelled by `cols0`'s default `0`.) -/
def ofList (input : Mat) : Matrix :=
  { data := input, rows := input.length, cols := cols0 input }

/-- `getData()`. -/
def Matrix.getData (M : Matrix) : Mat := M.data

/-- `getMinor(row, col)`: copy every entry whose row index is not `row`
and column index is not `col` into a `(rows-1) × (cols-1)` matrix. -/
def Matrix.getMinor (M : Matrix) (r c : Nat) : Matrix :=
  { data := ((List.range M.rows).filter (fun i => i ≠ r)).map (fun i =>
      ((List.range M.cols).filter (fun j => j ≠ c)).map (fun j => entry M.data i j))
    rows := M.rows - 1
    cols := M.cols - 1 }

/-- The recursion of `Matrix::determinant`, on the `rows`/`cols` fields and
the data grid: `1×1` and `2×2` base cases, otherwise cofactor expansion
along row 0 (`det += (-1)^j * data[0][j] * minor.determinant()`).
`rows = 0` falls through every case and returns the initial `det = 0.0`. -/
def detExpand : Nat → Nat → Mat → ℚ
  | 0, _, _ => 0
  | 1, _, data => entry data 0 0
  | 2, _, data => entry data 0 0 * entry data 1 1 - entry data 0 1 * entry data 1 0
  | r + 3, c, data =>
    ((List.range c).map (fun j =>
      (if j % 2 = 0 then (1 : ℚ) else -1) * entry data 0 j *
        detExpand (r + 2) (c - 1)
          (((List.range (r + 3)).filter (fun i => i ≠ 0)).map (fun i =>
            ((List.range c).filter (fun j' => j' ≠ j)).map (fun j' => entry data i j'))))).sum

/-- `Matrix::determinant`: square check, then cofactor expansion. -/
def Matrix.determinant (M : Matrix) : Except Err ℚ :=
  if M.rows ≠ M.cols then .error .dim
  else .ok (detExpand M.rows M.cols M.data)

/-- One Gauss-Jordan step of `Matrix::inverse` on the augmented matrix
(pivot already checked): scale row `i` by `1/pivot` over all `2*cols`
columns, then for every `k ≠ i` subtract `factor = augmented(k, i)` times
row `i` from row `k`. -/
def augStep (i : Nat) (aug : Mat) : Mat :=
  let piv := entry aug i i
  let augN := idxMap (fun k row => if k = i then row.map (· / piv) else row) aug
  let rowi := getRow augN i
  idxMap (fun k row =>
    if k ≠ i then idxMap (fun j x => x - row.getD i 0 * rowi.getD j 0) row else row) augN

/-- The elimination loop of `Matrix::inverse`; `none` means the
`"Matrix is singular"` throw at a sub-tolerance pivot. -/
def augLoop : Nat → Nat → Mat → Option Mat
  | 0, _, aug => some aug
  | fuel + 1, i, aug =>
    if fabs (entry aug i i) < tol then none
    else augLoop fuel (i + 1) (augStep i aug)

/-- `Matrix::inverse`: square check, then the cofactor determinant is
computed first and `|det| < 1e-10` throws singular **before any
elimination begins**; otherwise build the augmented `[A|I]` and run
Gauss-Jordan, extracting the right half. -/
def Matrix.inverse (M : Matrix) : Except Err Matrix :=
  if M.rows ≠ M.cols then .error .dim
  else if fabs (detExpand M.rows M.cols M.data) < tol then .error .singular
  else
    let aug0 : Mat := (List.range M.rows).map (fun i =>
      (List.range (2 * M.cols)).map (fun j =>
        if j < M.cols then entry M.data i j else if j = i + M.cols then (1 : ℚ) else 0))
    match augLoop M.rows 0 aug0 with
    | none => .error .singular
    | some aug => .ok
        { data := (List.range M.rows).map (fun i =>
            (List.range M.cols).map (fun j => entry aug i (j + M.cols)))
          rows := M.rows
          cols := M.cols }

/-- `dotProduct` of `matrix_ops.cpp`: the same accumulating loop as
`matrix.cpp`, but the scalar is returned wrapped in a one-element
`std::vector<double>` (`return {result};`). -/
def dotProduct (a b : Vec) : Except Err Vec :=
  if a.length ≠ b.length then .error .dim
  else .ok [((List.range a.length).map (fun i => a.getD i 0 * b.getD i 0)).sum]

end mops

/-! ### Spec-side definitions -/

/-- The rectangularity invariant stated by the spec for the `Matrix` class:
`rows ≥ 1`, `cols ≥ 1`, and every row has exactly `cols` elements. -/
def OpsInvariant (M : mops.Matrix) : Prop :=
  1 ≤ M.rows ∧ 1 ≤ M.cols ∧ ∀ row ∈ M.data, row.length = M.cols

/-- The spec's dot-product formula `Σ a[i]·b[i]`, written independently of
the source's accumulation loop. -/
def dotSpec (a b : Vec) : ℚ := (List.zipWith (fun x y => x * y) a b).sum

/-- A list-of-rows is rectangular with every row of length `c`. -/
def RowsLen (m : Mat) (c : Nat) : Prop := ∀ row ∈ m, row.length = c

/-! ### Supporting lemmas -/

theorem dotLoop_eq_dotSpec :
    ∀ (a b : Vec), a.length = b.length →
      ((List.range a.length).map (fun i => a.getD i 0 * b.getD i 0)).sum = dotSpec a b := by
  intro a
  induction a with
  | nil => intro b _; simp [dotSpec]
  | cons x a ih =>
    intro b hb
    cases b with
    | nil => simp at hb
    | cons y b =>
      simp only [List.length_cons, List.range_succ_eq_map, List.map_cons, List.map_map,
        List.sum_cons, dotSpec, List.zipWith_cons_cons]
      have hb' : a.length = b.length := by simpa using hb
      have := ih b hb'
      have hf : ((fun i => (x :: a).getD i 0 * (y :: b).getD i 0) ∘ Nat.succ)
          = (fun i => a.getD i 0 * b.getD i 0) := funext (fun i => rfl)
      rw [hf, this]
      rfl

theorem cols0_idxMap_idxMap (g : Nat → Nat → ℚ → ℚ) (a : Mat) :
    cols0 (idxMap (fun i row => idxMap (g i) row) a) = cols0 a := by
  cases a with
  | nil => rfl
  | cons r rest =>
    show cols0 (idxMap (g 0) r :: idxMapFrom _ 1 rest) = cols0 (r :: rest)
    simp [cols0, length_idxMap]

theorem length_pos_ne_nil {l : Mat} (h : l ≠ []) : 0 < l.length :=
  List.length_pos.mpr h

/-! ### Claim theorems -/

/-- C3: for `A = [[1,2],[3,4]]` and `B = [[5,6],[7,8]]`, `matrix_multiply`
returns exactly `[[19,22],[43,50]]`, `determinant A` returns exactly `-2`,
and `inverse A` returns exactly `[[-2,1],[1.5,-0.5]]`. -/
theorem c3_concrete_results :
    mlib.matrix_multiply [[1,2],[3,4]] [[5,6],[7,8]] = Except.ok [[19,22],[43,50]] ∧
    mlib.determinant [[1,2],[3,4]] = Except.ok (-2) ∧
    mlib.inverse [[1,2],[3,4]] = Except.ok [[-2,1],[3/2,-1/2]] := by
  with_unfolding_all decide

/-- C4: on `[[0,1],[1,0]]` — non-singular, cofactor determinant `-1` — the
fixed-position elimination reads the zero in position `(0,0)` as the pivot
and never interchanges rows, so `determinant` returns `0.0` while `inverse`
and `solve` (for every length-2 right-hand side) fail singular. -/
theorem c4_no_row_interchange :
    mlib.determinant [[0,1],[1,0]] = Except.ok 0 ∧
    mlib.inverse [[0,1],[1,0]] = Except.error Err.singular ∧
    mops.detExpand 2 2 [[0,1],[1,0]] = -1 ∧
    ∀ b : Vec, b.length = 2 → mlib.solve [[0,1],[1,0]] b = Except.error Err.singular := by
  refine ⟨by with_unfolding_all decide, by with_unfolding_all decide,
    by with_unfolding_all decide, ?_⟩
  intro b hb
  unfold mlib.solve
  rw [if_neg (by simp [hb, cols0])]
  show (if (mlib.solveLoop 2 0
        { callerA := [[0,1],[1,0]], callerB := b, temp := [[0,1],[1,0]], res := b }).1
      then Except.ok (mlib.solveLoop 2 0
        { callerA := [[0,1],[1,0]], callerB := b, temp := [[0,1],[1,0]], res := b }).2.res
      else Except.error Err.singular) = Except.error Err.singular
  rw [show (mlib.solveLoop 2 0
        { callerA := [[0,1],[1,0]], callerB := b, temp := [[0,1],[1,0]], res := b }).1 = false
    from by with_unfolding_all rfl]
  simp

/-- C4 witness: the conclusions of `c4_no_row_interchange` instantiated at
the concrete right-hand side `[5, 6]`. -/
theorem c4_witness :
    mlib.determinant [[0,1],[1,0]] = Except.ok 0 ∧
    mlib.solve [[0,1],[1,0]] [5,6] = Except.error Err.singular :=
  ⟨c4_no_row_interchange.1, c4_no_row_interchange.2.2.2 [5,6] rfl⟩

/-- C5 counterexample: the `Matrix(input)` constructor of `matrix_ops.cpp`
accepts the jagged input `[[1,2],[3]]` unvalidated (storing `cols = 2`
while the second row has length 1), so construction from invariant-violating
input is **not** rejected, contrary to the claim. -/
theorem c5_counterexample :
    mops.ofList [[1,2],[3]] = { data := [[1,2],[3]], rows := 2, cols := 2 } ∧
    ¬ OpsInvariant (mops.ofList [[1,2],[3]]) := by
  constructor
  · rfl
  · intro h
    have h3 := h.2.2 [3] (by simp [mops.ofList])
    simp [mops.ofList, cols0] at h3

/-- C5 (amended): the constructor stores its input without any validation
(`rows = input.size()`, `cols = input[0].size()`, `data = input`); the
spec's rectangularity invariant therefore holds for the constructed value
exactly when the input itself was nonempty and rectangular with at least
one column — jagged input is accepted and violates it. -/
theorem c5_rectangular_invariant (input : Mat) (h1 : input ≠ [])
    (h2 : 1 ≤ cols0 input) (h3 : RowsLen input (cols0 input)) :
    (mops.ofList input).data = input ∧
    (mops.ofList input).rows = input.length ∧
    (mops.ofList input).cols = cols0 input ∧
    OpsInvariant (mops.ofList input) := by
  refine ⟨rfl, rfl, rfl, ?_, h2, ?_⟩
  · exact List.length_pos.mpr h1
  · intro row hrow
    exact h3 row hrow

/-- C5 witness: `c5_rectangular_invariant` at the rectangular input `[[1]]`. -/
theorem c5_witness :
    (mops.ofList [[1]]).data = [[1]] ∧
    (mops.ofList [[1]]).rows = 1 ∧
    (mops.ofList [[1]]).cols = cols0 [[1]] ∧
    OpsInvariant (mops.ofList [[1]]) :=
  c5_rectangular_invariant [[1]] (by simp) (by simp [cols0])
    (by intro row hrow; simp at hrow; simp [hrow, cols0])

/-- C6 counterexample: `matrix.cpp`'s `dot_product` returns the scalar sum,
but `matrix_ops.cpp`'s `dotProduct` returns the one-element vector
`{result}` — a composite value, not a single number as the claim states
for both. -/
theorem c6_counterexample :
    mlib.dot_product [1,2] [3,4] = Except.ok 11 ∧
    mops.dotProduct [1,2] [3,4] = Except.ok [11] := by
  with_unfolding_all decide

/-- C6 (amended): for equal-length vectors both implementations compute
`Σ a[i]·b[i]`, `matrix.cpp` returning it as a scalar and `matrix_ops.cpp`
wrapped in a one-element vector; on unequal lengths both fail with the
dimension error. -/
theorem c6_dot_product (a b : Vec) :
    (a.length = b.length →
      mlib.dot_product a b = Except.ok (dotSpec a b) ∧
      mops.dotProduct a b = Except.ok [dotSpec a b]) ∧
    (a.length ≠ b.length →
      mlib.dot_product a b = Except.error Err.dim ∧
      mops.dotProduct a b = Except.error Err.dim) := by
  constructor
  · intro h
    rw [mlib.dot_product, mops.dotProduct, if_neg (by simp [h]), if_neg (by simp [h]),
      dotLoop_eq_dotSpec a b h]
    exact ⟨rfl, rfl⟩
  · intro h
    rw [mlib.dot_product, mops.dotProduct, if_pos h, if_pos h]
    exact ⟨rfl, rfl⟩

/-- C6 witness: `c6_dot_product` at the spec's own example
`dotProduct([1,0,0],[0,1,0]) = 0` and at a length-mismatched pair. -/
theorem c6_witness :
    mlib.dot_product [1,0,0] [0,1,0] = Except.ok (dotSpec [1,0,0] [0,1,0]) ∧
    mops.dotProduct [1,2] [3,4,5] = Except.error Err.dim :=
  ⟨((c6_dot_product [1,0,0] [0,1,0]).1 (by decide)).1,
   ((c6_dot_product [1,2] [3,4,5]).2 (by decide)).2⟩

/-- C8: adding `B` and then subtracting `B` recovers `A` exactly (the model
is exact arithmetic, so "within floating tolerance" becomes equality). -/
theorem c8_add_subtract_roundtrip (a b c : Mat) (h : mlib.add a b = Except.ok c) :
    mlib.subtract c b = Except.ok a := by
  unfold mlib.add at h
  by_cases hcond : a.length ≠ b.length ∨ a = [] ∨ b = [] ∨ cols0 a ≠ cols0 b
  · rw [if_pos hcond] at h
    exact absurd h (by simp)
  · rw [if_neg hcond] at h
    push_neg at hcond
    obtain ⟨hlen, hane, hbne, hcols⟩ := hcond
    injection h with h2
    subst h2
    unfold mlib.subtract
    rw [cols0_idxMap_idxMap, length_idxMap]
    rw [if_neg (by
      simp only [not_or, not_not]
      refine ⟨hlen, ?_, hbne, hcols⟩
      intro hnil
      have := length_idxMap (fun i row =>
        idxMap (fun j x => if j < cols0 a then x + entry b i j else x) row) a
      rw [hnil] at this
      exact hane (List.length_eq_zero.mp this.symm))]
    refine congrArg Except.ok ?_
    rw [show (idxMap (fun i row =>
        idxMap (fun j x => if j < cols0 a then x - entry b i j else x) row)
        (idxMap (fun i row =>
        idxMap (fun j x => if j < cols0 a then x + entry b i j else x) row) a))
      = idxMap (fun i row =>
          idxMap (fun j x => if j < cols0 a then x - entry b i j else x)
            (idxMap (fun j x => if j < cols0 a then x + entry b i j else x) row)) a
      from idxMapFrom_idxMapFrom _ _ 0 a]
    rw [show (fun (i : Nat) (row : List ℚ) =>
        idxMap (fun j x => if j < cols0 a then x - entry b i j else x)
          (idxMap (fun j x => if j < cols0 a then x + entry b i j else x) row))
      = (fun (i : Nat) (row : List ℚ) =>
        idxMap (fun j x =>
          if j < cols0 a then (if j < cols0 a then x + entry b i j else x) - entry b i j
          else (if j < cols0 a then x + entry b i j else x)) row)
      from funext (fun i => funext (fun row => idxMapFrom_idxMapFrom _ _ 0 row))]
    have hinner : ∀ (i : Nat) (row : List ℚ),
        idxMap (fun j x =>
          if j < cols0 a then (if j < cols0 a then x + entry b i j else x) - entry b i j
          else (if j < cols0 a then x + entry b i j else x)) row = row := by
      intro i row
      have := idxMapFrom_congr (f := fun j x =>
          if j < cols0 a then (if j < cols0 a then x + entry b i j else x) - entry b i j
          else (if j < cols0 a then x + entry b i j else x))
        (g := fun _ x => x) 0 row ?_
      · rw [idxMap, this, idxMapFrom_id]
      · intro j x _ _
        by_cases hj : j < cols0 a
        · simp [hj]
        · simp [hj]
    have := idxMapFrom_congr (f := fun i row =>
        idxMap (fun j x =>
          if j < cols0 a then (if j < cols0 a then x + entry b i j else x) - entry b i j
          else (if j < cols0 a then x + entry b i j else x)) row)
      (g := fun _ row => row) 0 a (fun i row _ _ => by simpa using hinner i row)
    rw [idxMap, this, idxMapFrom_id]

/-- C8 witness: `c8_add_subtract_roundtrip` on `A = [[1,2],[3,4]]`,
`B = [[5,6],[7,8]]`. -/
theorem c8_witness : mlib.subtract [[6,8],[10,12]] [[5,6],[7,8]] = Except.ok [[1,2],[3,4]] :=
  c8_add_subtract_roundtrip [[1,2],[3,4]] [[5,6],[7,8]] [[6,8],[10,12]]
    (by with_unfolding_all decide)

theorem detLoop_caller : ∀ (fuel i : Nat) (s : mlib.DetState) (d : ℚ),
    ((mlib.detLoop fuel i s d).2).caller = s.caller := by
  intro fuel
  induction fuel with
  | zero => intro i s d; rfl
  | succ fuel ih =>
    intro i s d
    simp only [mlib.detLoop]
    split
    · rfl
    · exact (ih (i + 1) (mlib.detStep i s) (d * entry s.temp i i)).trans rfl

theorem invLoop_caller : ∀ (fuel i : Nat) (s : mlib.InvState),
    ((mlib.invLoop fuel i s).2).caller = s.caller := by
  intro fuel
  induction fuel with
  | zero => intro i s; rfl
  | succ fuel ih =>
    intro i s
    simp only [mlib.invLoop]
    split
    · rfl
    · exact (ih (i + 1) (mlib.invStep i s)).trans rfl

theorem solveLoop_caller : ∀ (fuel i : Nat) (s : mlib.SolveState),
    ((mlib.solveLoop fuel i s).2).callerA = s.callerA ∧
    ((mlib.solveLoop fuel i s).2).callerB = s.callerB := by
  intro fuel
  induction fuel with
  | zero => intro i s; exact ⟨rfl, rfl⟩
  | succ fuel ih =>
    intro i s
    simp only [mlib.solveLoop]
    split
    · exact ⟨rfl, rfl⟩
    · exact ⟨((ih (i + 1) (mlib.solveStep i s)).1).trans rfl,
             ((ih (i + 1) (mlib.solveStep i s)).2).trans rfl⟩

/-- C9: the elimination loops of `determinant`, `inverse` and `solve`
operate only on the working copies (`temp`, `result`): the caller's matrix
(and, for `solve`, the right-hand-side vector), carried verbatim in the
loop state as the C++ locals hold the `const` references, is unchanged at
every exit of every loop — whether the loop completes or stops at a
singular pivot. -/
theorem c9_frame_preservation :
    (∀ (fuel i : Nat) (s : mlib.DetState) (d : ℚ),
      ((mlib.detLoop fuel i s d).2).caller = s.caller) ∧
    (∀ (fuel i : Nat) (s : mlib.InvState),
      ((mlib.invLoop fuel i s).2).caller = s.caller) ∧
    (∀ (fuel i : Nat) (s : mlib.SolveState),
      ((mlib.solveLoop fuel i s).2).callerA = s.callerA ∧
      ((mlib.solveLoop fuel i s).2).callerB = s.callerB) :=
  ⟨detLoop_caller, invLoop_caller, solveLoop_caller⟩

set_option maxRecDepth 8000 in
/-- C10: `Matrix::inverse` of `matrix_ops.cpp` gates on the cofactor
determinant before any elimination: whenever `|det| < 1e-10` it throws
singular.  On the invertible matrix `[[1e-6,0],[0,1e-6]]` (determinant
`1e-12`, every elimination pivot `1e-6` far above tolerance — witnessed by
`detHits = false` and by `matrix.cpp`'s `inverse` succeeding with the true
inverse) it therefore fails as singular. -/
theorem c10_inverse_det_pregate :
    (∀ M : mops.Matrix, M.rows = M.cols →
      fabs (mops.detExpand M.rows M.cols M.data) < tol →
      M.inverse = Except.error Err.singular) ∧
    (mops.ofList [[1/1000000,0],[0,1/1000000]]).determinant = Except.ok (1/1000000000000) ∧
    (mops.ofList [[1/1000000,0],[0,1/1000000]]).inverse = Except.error Err.singular ∧
    mlib.detHits 2 0 [[1/1000000,0],[0,1/1000000]] = false ∧
    mlib.inverse [[1/1000000,0],[0,1/1000000]] = Except.ok [[1000000,0],[0,1000000]] ∧
    mlib.matrix_multiply [[1/1000000,0],[0,1/1000000]] [[1000000,0],[0,1000000]]
      = Except.ok [[1,0],[0,1]] := by
  refine ⟨?_, ?_, ?_, ?_, ?_, ?_⟩
  · intro M hsq hdet
    unfold mops.Matrix.inverse
    rw [if_neg (by simp [hsq]), if_pos hdet]
  · norm_num [mops.Matrix.determinant, mops.ofList, mops.detExpand, cols0, entry, getRow]
  · with_unfolding_all decide
  · with_unfolding_all decide
  · norm_num [mlib.inverse, mlib.invLoop, mlib.invStep, mlib.identity, cols0, entry,
      getRow, idxMap, idxMapFrom, fabs, tol, List.range_succ]
    intro h
    exact absurd h (List.cons_ne_nil _ _)
  · with_unfolding_all decide

/-- C10 witness: the gate of `c10_inverse_det_pregate` applied to the
all-zero `2×2` matrix. -/
theorem c10_witness :
    (mops.ofList [[0,0],[0,0]]).inverse = Except.error Err.singular :=
  c10_inverse_det_pregate.1 (mops.ofList [[0,0],[0,0]]) rfl (by with_unfolding_all decide)

theorem getD_map_range (n : Nat) (g : Nat → α) (i : Nat) (d : α) :
    ((List.range n).map g).getD i d = if i < n then g i else d := by
  by_cases h : i < n
  · rw [List.getD_eq_getElem?_getD, List.getElem?_map, List.getElem?_range h]
    simp [h]
  · rw [List.getD_eq_getElem?_getD, List.getElem?_map,
      List.getElem?_eq_none (by simpa using not_lt.mp h)]
    simp [h]

theorem entry_rangeMap (n m : Nat) (f : Nat → Nat → ℚ) (i j : Nat) :
    entry ((List.range n).map (fun i => (List.range m).map (f i))) i j
      = if i < n ∧ j < m then f i j else 0 := by
  unfold entry getRow
  rw [getD_map_range]
  by_cases hi : i < n
  · rw [if_pos hi, getD_map_range]
    by_cases hj : j < m
    · simp [hi, hj]
    · simp [hi, hj]
  · rw [if_neg hi]
    simp [hi]

theorem cols0_rangeMap (n : Nat) (g : Nat → List ℚ) (h : 0 < n) :
    cols0 ((List.range n).map g) = (g 0).length := by
  cases n with
  | zero => exact absurd h (by simp)
  | succ k =>
    rw [List.range_succ_eq_map]
    rfl

theorem rangeMap_ne_nil (n : Nat) (g : Nat → List ℚ) (h : 0 < n) :
    (List.range n).map g ≠ [] := by
  intro hnil
  have := congrArg List.length hnil
  simp at this
  omega

theorem except_bind_ok {ε α β : Type} (x : α) (f : α → Except ε β) :
    (Except.ok (ε := ε) x).bind f = f x := rfl

/-- C7: for all matrices of compatible shape (nonempty, at least one
column each, `A.cols == B.rows`), `transpose(multiply(A,B))` equals
`multiply(transpose(B), transpose(A))` — stated with the error plumbing of
the source, both sides evaluating to the same successful result. -/
theorem c7_transpose_multiply (a b : Mat) (ha : a ≠ []) (hb : b ≠ [])
    (hca : 0 < cols0 a) (hcb : 0 < cols0 b) (hcompat : cols0 a = b.length) :
    (mlib.matrix_multiply a b).bind mlib.transpose
      = (mlib.transpose b).bind (fun tb =>
          (mlib.transpose a).bind (fun ta => mlib.matrix_multiply tb ta)) := by
  have hapos : 0 < a.length := List.length_pos.mpr ha
  have hbpos : 0 < b.length := List.length_pos.mpr hb
  have hmul : mlib.matrix_multiply a b = Except.ok ((List.range a.length).map (fun i =>
      (List.range (cols0 b)).map (fun j =>
        ((List.range b.length).map (fun k => entry a i k * entry b k j)).sum))) := by
    unfold mlib.matrix_multiply
    rw [if_neg (by simp [ha, hb, hcompat])]
  have htb : mlib.transpose b = Except.ok ((List.range (cols0 b)).map (fun j =>
      (List.range b.length).map (fun i => entry b i j))) := by
    unfold mlib.transpose
    rw [if_neg (by simp [hb])]
  have hta : mlib.transpose a = Except.ok ((List.range (cols0 a)).map (fun j =>
      (List.range a.length).map (fun i => entry a i j))) := by
    unfold mlib.transpose
    rw [if_neg (by simp [ha])]
  rw [hmul, htb, hta, except_bind_ok, except_bind_ok, except_bind_ok]
  -- left side: transpose of the product
  unfold mlib.transpose
  rw [if_neg (by simp [rangeMap_ne_nil a.length _ hapos])]
  -- right side: product of the transposes
  unfold mlib.matrix_multiply
  rw [if_neg (by
    refine not_or_intro (rangeMap_ne_nil _ _ hcb) (not_or_intro (rangeMap_ne_nil _ _ hca) ?_)
    rw [cols0_rangeMap _ _ hcb]
    simp [hcompat])]
  refine congrArg Except.ok ?_
  rw [cols0_rangeMap _ _ hapos]
  simp only [List.length_map, List.length_range]
  rw [cols0_rangeMap _ _ hca]
  simp only [List.length_map, List.length_range]
  refine List.map_congr_left ?_
  intro j hj
  have hjlt : j < cols0 b := List.mem_range.mp hj
  refine List.map_congr_left ?_
  intro i hi
  have hilt : i < a.length := List.mem_range.mp hi
  rw [entry_rangeMap, if_pos ⟨hilt, hjlt⟩, ← hcompat]
  refine congrArg List.sum ?_
  refine List.map_congr_left ?_
  intro k hk
  have hklt : k < cols0 a := List.mem_range.mp hk
  rw [entry_rangeMap, entry_rangeMap,
    if_pos ⟨hjlt, hcompat ▸ hklt⟩, if_pos ⟨hklt, hilt⟩, mul_comm]

/-- C7 witness: `c7_transpose_multiply` at `A = [[1,2],[3,4]]`,
`B = [[5,6],[7,8]]`. -/
theorem c7_witness :
    (mlib.matrix_multiply [[1,2],[3,4]] [[5,6],[7,8]]).bind mlib.transpose
      = (mlib.transpose [[5,6],[7,8]]).bind (fun tb =>
          (mlib.transpose [[1,2],[3,4]]).bind (fun ta => mlib.matrix_multiply tb ta)) :=
  c7_transpose_multiply [[1,2],[3,4]] [[5,6],[7,8]] (by simp) (by simp)
    (by decide) (by decide) (by decide)

theorem getD_map_lt {α β : Type} {g : α → β} {l : List α} {j : Nat} (h : j < l.length)
    (d : β) (d' : α) : (l.map g).getD j d = g (l.getD j d') := by
  rw [List.getD_eq_getElem?_getD, List.getElem?_map, List.getElem?_eq_getElem h,
      List.getD_eq_getElem?_getD, List.getElem?_eq_getElem h]
  rfl

theorem getD_ge {α : Type} {l : List α} {j : Nat} (h : l.length ≤ j) (d : α) :
    l.getD j d = d := by
  rw [List.getD_eq_getElem?_getD, List.getElem?_eq_none h]
  rfl

theorem getRow_idxMap (F : Nat → List ℚ → List ℚ) (m : Mat) (k : Nat) :
    getRow (idxMap F m) k = if k < m.length then F k (getRow m k) else [] :=
  getD_idxMap F k m []

theorem getRow_ge {m : Mat} {k : Nat} (h : m.length ≤ k) : getRow m k = [] :=
  getD_ge h []

theorem detStepTemp_row_gt {i k : Nat} (temp : Mat) (hik : i < k) (hk : k < temp.length) :
    getRow (mlib.detStepTemp i temp) k
      = idxMap (fun j x => if i ≤ j then
          x - (getRow temp k).getD i 0 / entry temp i i * (getRow temp i).getD j 0 else x)
        (getRow temp k) := by
  unfold mlib.detStepTemp
  rw [getRow_idxMap, if_pos hk, if_pos hik]

theorem detStepTemp_row_le {i k : Nat} (temp : Mat) (hik : ¬ i < k) :
    getRow (mlib.detStepTemp i temp) k = getRow temp k := by
  unfold mlib.detStepTemp
  rw [getRow_idxMap]
  by_cases hk : k < temp.length
  · rw [if_pos hk, if_neg hik]
  · rw [if_neg hk, getRow_ge (not_lt.mp hk)]

theorem length_detStepTemp (i : Nat) (temp : Mat) :
    (mlib.detStepTemp i temp).length = temp.length := by
  unfold mlib.detStepTemp
  exact length_idxMap _ _

theorem tol_pos : 0 < tol := by with_unfolding_all decide

theorem ne_zero_of_not_small {p : ℚ} (h : ¬ fabs p < tol) : p ≠ 0 := by
  intro h0
  subst h0
  exact h (by with_unfolding_all decide)

def RelDI (i : Nat) (dtemp itemp : Mat) : Prop :=
  dtemp.length = itemp.length ∧
  (∀ k, i ≤ k → getRow dtemp k = getRow itemp k) ∧
  (∀ k j, i ≤ k → j < i → entry dtemp k j = 0)

theorem length_invStep_temp (i : Nat) (s : mlib.InvState) :
    (mlib.invStep i s).temp.length = s.temp.length := by
  unfold mlib.invStep
  rw [length_idxMap, length_idxMap]

theorem invStep_temp_row {i k : Nat} (s : mlib.InvState) (hki : k ≠ i)
    (hk : k < s.temp.length) (hi : i < s.temp.length) :
    getRow (mlib.invStep i s).temp k
      = idxMap (fun j x => x - (getRow s.temp k).getD i 0 *
          ((getRow s.temp i).map (· / entry s.temp i i)).getD j 0)
        (getRow s.temp k) := by
  unfold mlib.invStep
  rw [getRow_idxMap, length_idxMap, if_pos hk, getRow_idxMap, if_pos hk, if_neg hki,
    if_pos hki, getRow_idxMap, if_pos hi, if_pos rfl]

theorem RelDI_step {i : Nat} {dtemp : Mat} {si : mlib.InvState}
    (h : RelDI i dtemp si.temp) (hi : i < dtemp.length)
    (hp : ¬ fabs (entry dtemp i i) < tol) :
    RelDI (i + 1) (mlib.detStepTemp i dtemp) (mlib.invStep i si).temp := by
  obtain ⟨hlen, hrows, hzeros⟩ := h
  have hii : i < si.temp.length := hlen ▸ hi
  have hrowi : getRow dtemp i = getRow si.temp i := hrows i le_rfl
  have hpiv : entry dtemp i i = entry si.temp i i := by
    unfold entry
    rw [hrowi]
  have hpne : entry dtemp i i ≠ 0 := ne_zero_of_not_small hp
  refine ⟨?_, ?_, ?_⟩
  · rw [length_detStepTemp, length_invStep_temp, hlen]
  · intro k hk
    have hik : i < k := by omega
    by_cases hklt : k < dtemp.length
    · rw [detStepTemp_row_gt dtemp hik hklt]
      rw [invStep_temp_row si (by omega) (hlen ▸ hklt) hii]
      rw [← hrows k (by omega), ← hrowi, ← hpiv]
      unfold idxMap
      refine idxMapFrom_congr 0 (getRow dtemp k) ?_
      intro j x hj hx
      simp only [Nat.zero_add]
      by_cases hij : i ≤ j
      · rw [if_pos hij]
        by_cases hjl : j < (getRow dtemp i).length
        · rw [getD_map_lt hjl 0 0]
          ring
        · rw [getD_ge (l := (getRow dtemp i).map (· / entry dtemp i i)) (j := j)
              (by simpa using not_lt.mp hjl) 0,
            getD_ge (l := getRow dtemp i) (j := j) (not_lt.mp hjl) 0]
          simp
      · rw [if_neg hij]
        have hji : j < i := by omega
        have hz : (getRow dtemp i).getD j 0 = 0 := hzeros i j le_rfl hji
        by_cases hjl : j < (getRow dtemp i).length
        · rw [getD_map_lt hjl 0 0, hz]
          simp
        · rw [getD_ge (l := (getRow dtemp i).map (· / entry dtemp i i)) (j := j)
              (by simpa using not_lt.mp hjl) 0]
          simp
    · rw [getRow_ge (by rw [length_detStepTemp]; omega),
        getRow_ge (by rw [length_invStep_temp]; omega)]
  · intro k j hk hj
    have hik : i < k := by omega
    by_cases hklt : k < dtemp.length
    · show (getRow (mlib.detStepTemp i dtemp) k).getD j 0 = 0
      rw [detStepTemp_row_gt dtemp hik hklt]
      rw [getD_idxMap]
      by_cases hjl : j < (getRow dtemp k).length
      · rw [if_pos hjl]
        rcases Nat.lt_or_ge j i with hji | hge
        · rw [if_neg (by omega)]
          exact hzeros k j (by omega) hji
        · have hji : j = i := by omega
          subst hji
          rw [if_pos le_rfl]
          rw [show (getRow dtemp j).getD j 0 = entry dtemp j j from rfl]
          rw [div_mul_cancel₀ _ hpne]
          exact sub_self _
      · rw [if_neg hjl]
    · show (getRow (mlib.detStepTemp i dtemp) k).getD j 0 = 0
      rw [getRow_ge (by rw [length_detStepTemp]; omega)]
      rfl

theorem invLoop_eq_not_detHits : ∀ (fuel i : Nat) (dtemp : Mat) (si : mlib.InvState),
    RelDI i dtemp si.temp →
    (mlib.invLoop fuel i si).1 = ! mlib.detHits fuel i dtemp := by
  intro fuel
  induction fuel with
  | zero => intro i dtemp si _; rfl
  | succ fuel ih =>
    intro i dtemp si h
    simp only [mlib.invLoop, mlib.detHits]
    have hpiv : entry si.temp i i = entry dtemp i i := by
      unfold entry
      rw [h.2.1 i le_rfl]
    rw [hpiv]
    by_cases hp : fabs (entry dtemp i i) < tol
    · rw [if_pos hp, if_pos hp]
      rfl
    · rw [if_neg hp, if_neg hp]
      have hi : i < dtemp.length := by
        by_contra hge
        refine hp ?_
        have hz : entry dtemp i i = 0 := by
          unfold entry
          rw [getRow_ge (not_lt.mp hge)]
          rfl
        rw [hz]
        with_unfolding_all decide
      exact ih (i + 1) (mlib.detStepTemp i dtemp) (mlib.invStep i si) (RelDI_step h hi hp)

theorem detLoop_zero_of_hits : ∀ (fuel i : Nat) (s : mlib.DetState) (d : ℚ),
    mlib.detHits fuel i s.temp = true → (mlib.detLoop fuel i s d).1 = 0 := by
  intro fuel
  induction fuel with
  | zero =>
    intro i s d h
    exact absurd h (by simp [mlib.detHits])
  | succ fuel ih =>
    intro i s d h
    simp only [mlib.detHits] at h
    simp only [mlib.detLoop]
    by_cases hp : fabs (entry s.temp i i) < tol
    · rw [if_pos hp]
    · rw [if_neg hp]
      rw [if_neg hp] at h
      exact ih (i + 1) (mlib.detStep i s) (d * entry s.temp i i) h

def RelDS (i : Nat) (dtemp stemp : Mat) : Prop :=
  dtemp.length = stemp.length ∧
  (∀ k, i ≤ k → getRow dtemp k = getRow stemp k)

theorem length_solveStep_temp (i : Nat) (s : mlib.SolveState) :
    (mlib.solveStep i s).temp.length = s.temp.length := by
  unfold mlib.solveStep
  rw [length_idxMap, length_idxMap]

theorem solveStep_temp_row {i k : Nat} (s : mlib.SolveState) (hki : k ≠ i)
    (hk : k < s.temp.length) (hi : i < s.temp.length) :
    getRow (mlib.solveStep i s).temp k
      = idxMap (fun j x => if i ≤ j then x - (getRow s.temp k).getD i 0 *
          (idxMap (fun j x => if i ≤ j then x / entry s.temp i i else x)
            (getRow s.temp i)).getD j 0 else x)
        (getRow s.temp k) := by
  unfold mlib.solveStep
  rw [getRow_idxMap, length_idxMap, if_pos hk, getRow_idxMap, if_pos hk, if_neg hki,
    if_pos hki, getRow_idxMap, if_pos hi, if_pos rfl]

theorem RelDS_step {i : Nat} {dtemp : Mat} {ss : mlib.SolveState}
    (h : RelDS i dtemp ss.temp) (hi : i < dtemp.length) :
    RelDS (i + 1) (mlib.detStepTemp i dtemp) (mlib.solveStep i ss).temp := by
  obtain ⟨hlen, hrows⟩ := h
  have hii : i < ss.temp.length := hlen ▸ hi
  have hrowi : getRow dtemp i = getRow ss.temp i := hrows i le_rfl
  have hpiv : entry dtemp i i = entry ss.temp i i := by
    unfold entry
    rw [hrowi]
  refine ⟨?_, ?_⟩
  · rw [length_detStepTemp, length_solveStep_temp, hlen]
  · intro k hk
    have hik : i < k := by omega
    by_cases hklt : k < dtemp.length
    · rw [detStepTemp_row_gt dtemp hik hklt]
      rw [solveStep_temp_row ss (by omega) (hlen ▸ hklt) hii]
      rw [← hrows k (by omega), ← hrowi, ← hpiv]
      unfold idxMap
      refine idxMapFrom_congr 0 (getRow dtemp k) ?_
      intro j x hj hx
      simp only [Nat.zero_add]
      by_cases hij : i ≤ j
      · rw [if_pos hij, if_pos hij]
        rw [getD_idxMapFrom]
        by_cases hjl : j < (getRow dtemp i).length
        · rw [if_pos hjl, Nat.zero_add, if_pos hij]
          ring
        · rw [if_neg hjl, getD_ge (l := getRow dtemp i) (j := j) (not_lt.mp hjl) 0]
          simp
      · rw [if_neg hij, if_neg hij]
    · rw [getRow_ge (by rw [length_detStepTemp]; omega),
        getRow_ge (by rw [length_solveStep_temp]; omega)]

theorem solveLoop_eq_not_detHits : ∀ (fuel i : Nat) (dtemp : Mat) (ss : mlib.SolveState),
    RelDS i dtemp ss.temp →
    (mlib.solveLoop fuel i ss).1 = ! mlib.detHits fuel i dtemp := by
  intro fuel
  induction fuel with
  | zero => intro i dtemp ss _; rfl
  | succ fuel ih =>
    intro i dtemp ss h
    simp only [mlib.solveLoop, mlib.detHits]
    have hpiv : entry ss.temp i i = entry dtemp i i := by
      unfold entry
      rw [h.2 i le_rfl]
    rw [hpiv]
    by_cases hp : fabs (entry dtemp i i) < tol
    · rw [if_pos hp, if_pos hp]
      rfl
    · rw [if_neg hp, if_neg hp]
      have hi : i < dtemp.length := by
        by_contra hge
        refine hp ?_
        have hz : entry dtemp i i = 0 := by
          unfold entry
          rw [getRow_ge (not_lt.mp hge)]
          rfl
        rw [hz]
        with_unfolding_all decide
      exact ih (i + 1) (mlib.detStepTemp i dtemp) (mlib.solveStep i ss) (RelDS_step h hi)

/-- C1: for every square nonempty matrix whose fixed-position elimination
encounters a pivot of magnitude below the `1e-10` tolerance (the predicate
`detHits`, which replays the elimination's own pivot checks), `determinant`
returns `0.0` without failing, while `inverse` and `solve` (for every
right-hand side of matching length) fail with the singular-matrix error.
The inverse/solve eliminations track the determinant elimination row for
row below the pivot, so all three encounter the same pivot values. -/
theorem c1_small_pivot (a : Mat) (ha : a ≠ []) (hsq : a.length = cols0 a)
    (hhit : mlib.detHits a.length 0 a = true) :
    mlib.determinant a = Except.ok 0 ∧
    mlib.inverse a = Except.error Err.singular ∧
    ∀ b : Vec, b.length = a.length → mlib.solve a b = Except.error Err.singular := by
  refine ⟨?_, ?_, ?_⟩
  · unfold mlib.determinant
    rw [if_neg (by simp [ha, hsq])]
    exact congrArg Except.ok (detLoop_zero_of_hits a.length 0 { caller := a, temp := a } 1 hhit)
  · unfold mlib.inverse
    rw [if_neg (by simp [ha, hsq])]
    show (if (mlib.invLoop a.length 0
          { caller := a, temp := a, res := mlib.identity a.length }).1
        then Except.ok (mlib.invLoop a.length 0
          { caller := a, temp := a, res := mlib.identity a.length }).2.res
        else Except.error Err.singular) = Except.error Err.singular
    have hrel : RelDI 0 a a :=
      ⟨rfl, fun _ _ => rfl, fun _ j _ hj => absurd hj (Nat.not_lt_zero j)⟩
    have := invLoop_eq_not_detHits a.length 0 a
      { caller := a, temp := a, res := mlib.identity a.length } hrel
    rw [hhit] at this
    rw [this]
    simp
  · intro b hb
    unfold mlib.solve
    rw [if_neg (by simp [ha, hsq, hb])]
    show (if (mlib.solveLoop a.length 0
          { callerA := a, callerB := b, temp := a, res := b }).1
        then Except.ok (mlib.solveLoop a.length 0
          { callerA := a, callerB := b, temp := a, res := b }).2.res
        else Except.error Err.singular) = Except.error Err.singular
    have hrel : RelDS 0 a a := ⟨rfl, fun _ _ => rfl⟩
    have := solveLoop_eq_not_detHits a.length 0 a
      { callerA := a, callerB := b, temp := a, res := b } hrel
    rw [hhit] at this
    rw [this]
    simp

/-- C1 witness: `c1_small_pivot` on the spec's singular example
`[[1,2],[2,4]]` (second pivot `0`), with right-hand side `[1,2]`. -/
theorem c1_witness :
    mlib.determinant [[1,2],[2,4]] = Except.ok 0 ∧
    mlib.inverse [[1,2],[2,4]] = Except.error Err.singular ∧
    mlib.solve [[1,2],[2,4]] [1,2] = Except.error Err.singular :=
  have h := c1_small_pivot [[1,2],[2,4]] (by simp) (by decide) (by with_unfolding_all decide)
  ⟨h.1, h.2.1, h.2.2 [1,2] rfl⟩

theorem filter_ne_split : ∀ (m c : Nat), c < m →
    (List.range m).filter (fun x => x ≠ c) = List.range c ++ List.range' (c+1) (m - c - 1) := by
  intro m
  induction m with
  | zero => intro c hc; omega
  | succ m ih =>
    intro c hc
    rw [List.range_succ, List.filter_append]
    by_cases hcm : c = m
    · subst hcm
      rw [List.filter_eq_self.mpr (by
        intro x hx
        simp only [List.mem_range] at hx
        simp only [ne_eq, decide_eq_true_eq]
        omega)]
      have h1 : (List.filter (fun x => x ≠ c) [c]) = [] := by simp
      rw [h1]
      have h2 : c + 1 - c - 1 = 0 := by omega
      rw [h2]
      simp
    · have hc' : c < m := by omega
      rw [ih c hc']
      have h1 : (List.filter (fun x => x ≠ c) [m]) = [m] := by
        simp only [List.filter_cons, List.filter_nil]
        rw [if_pos (by simpa using Ne.symm hcm)]
      rw [h1, List.append_assoc]
      have h2 : m + 1 - c - 1 = (m - c - 1) + 1 := by omega
      rw [h2, List.range'_concat]
      have h3 : c + 1 + 1 * (m - c - 1) = m := by omega
      rw [h3]

theorem getD_range (n i : Nat) (d : Nat) :
    (List.range n).getD i d = if i < n then i else d := by
  by_cases h : i < n
  · rw [List.getD_eq_getElem?_getD, List.getElem?_range h]
    simp [h]
  · rw [List.getD_eq_getElem?_getD, List.getElem?_eq_none (by simpa using not_lt.mp h)]
    simp [h]

theorem getD_range' (s n i : Nat) (d : Nat) (h : i < n) :
    (List.range' s n).getD i d = s + i := by
  rw [List.getD_eq_getElem?_getD, List.getElem?_eq_getElem (by simpa using h),
    List.getElem_range']
  simp

theorem getD_filter_ne (m c l : Nat) (hc : c < m) (hl : l < m - 1) :
    ((List.range m).filter (fun x => x ≠ c)).getD l 0 = if l < c then l else l + 1 := by
  rw [filter_ne_split m c hc]
  by_cases hlc : l < c
  · rw [List.getD_eq_getElem?_getD,
      List.getElem?_append_left (by simpa using hlc)]
    rw [← List.getD_eq_getElem?_getD, getD_range, if_pos hlc, if_pos hlc]
  · rw [List.getD_eq_getElem?_getD, List.getElem?_append_right (by simpa using not_lt.mp hlc)]
    rw [← List.getD_eq_getElem?_getD]
    simp only [List.length_range]
    rw [getD_range' (c+1) (m - c - 1) (l - c) 0 (by omega), if_neg hlc]
    omega

theorem length_filter_ne (m c : Nat) (hc : c < m) :
    ((List.range m).filter (fun x => x ≠ c)).length = m - 1 := by
  rw [filter_ne_split m c hc]
  simp
  omega

def toMat (n : Nat) (m : Mat) : Matrix (Fin n) (Fin n) ℚ :=
  fun i j => entry m (i : Nat) (j : Nat)

theorem sum_list_range (f : Nat → ℚ) : ∀ n : Nat,
    ((List.range n).map f).sum = ∑ x ∈ Finset.range n, f x := by
  intro n
  induction n with
  | zero => simp
  | succ n ih =>
    rw [List.range_succ, List.map_append, List.sum_append, Finset.sum_range_succ, ih]
    simp

theorem sign_eq_neg_one_pow (j : Nat) :
    (if j % 2 = 0 then (1 : ℚ) else -1) = (-1) ^ j := by
  rcases Nat.even_or_odd j with h | h
  · rw [if_pos (Nat.even_iff.mp h), h.neg_one_pow]
  · rw [if_neg (by rw [Nat.odd_iff] at h; omega), h.neg_one_pow]

theorem detExpand_one (m : Mat) : mops.detExpand 1 1 m = (toMat 1 m).det := by
  rw [Matrix.det_fin_one]
  rfl

theorem detExpand_two (m : Mat) : mops.detExpand 2 2 m = (toMat 2 m).det := by
  rw [Matrix.det_fin_two]
  rfl

def minorData (rows c j : Nat) (data : Mat) : Mat :=
  ((List.range rows).filter (fun i => i ≠ 0)).map (fun i =>
    ((List.range c).filter (fun j' => j' ≠ j)).map (fun j' => entry data i j'))

theorem detExpand_succ (r c : Nat) (data : Mat) :
    mops.detExpand (r + 3) c data
      = ((List.range c).map (fun j =>
          (if j % 2 = 0 then (1 : ℚ) else -1) * entry data 0 j *
            mops.detExpand (r + 2) (c - 1) (minorData (r + 3) c j data))).sum := rfl

theorem length_minorData (k j : Nat) (data : Mat) (_hj : j < k + 3) :
    (minorData (k + 3) (k + 3) j data).length = k + 2 := by
  unfold minorData
  rw [List.length_map, length_filter_ne (k + 3) 0 (by omega)]
  omega

theorem rowsLen_minorData (k j : Nat) (data : Mat) (hj : j < k + 3) :
    RowsLen (minorData (k + 3) (k + 3) j data) (k + 2) := by
  intro row hrow
  unfold minorData at hrow
  rw [List.mem_map] at hrow
  obtain ⟨i, _, hrow⟩ := hrow
  rw [← hrow, List.length_map, length_filter_ne (k + 3) j hj]
  omega

theorem entry_minorData (k j : Nat) (data : Mat) (hj : j < k + 3)
    (i l : Nat) (hi : i < k + 2) (hl : l < k + 2) :
    entry (minorData (k + 3) (k + 3) j data) i l
      = entry data (i + 1) (if l < j then l else l + 1) := by
  unfold minorData entry getRow
  have hLr : ((List.range (k + 3)).filter (fun i => i ≠ 0)).length = k + 2 :=
    length_filter_ne (k + 3) 0 (by omega)
  rw [getD_map_lt (by rw [hLr]; exact hi) [] 0]
  rw [getD_filter_ne (k + 3) 0 i (by omega) (by omega)]
  rw [if_neg (Nat.not_lt_zero i)]
  have hLc : ((List.range (k + 3)).filter (fun j' => j' ≠ j)).length = k + 2 :=
    length_filter_ne (k + 3) j hj
  rw [getD_map_lt (by rw [hLc]; exact hl) 0 0]
  rw [getD_filter_ne (k + 3) j l hj (by omega)]

theorem coe_succAbove (k : Nat) (jf : Fin (k + 3)) (l : Fin (k + 2)) :
    ((jf.succAbove l : Fin (k + 3)) : Nat)
      = if (l : Nat) < (jf : Nat) then (l : Nat) else (l : Nat) + 1 := by
  by_cases h : (l : Nat) < (jf : Nat)
  · rw [Fin.succAbove_of_castSucc_lt jf l (by rw [Fin.lt_def]; simpa using h), if_pos h]
    simp
  · rw [Fin.succAbove_of_le_castSucc jf l (by rw [Fin.le_def]; simpa using not_lt.mp h),
      if_neg h]
    simp

theorem toMat_minorData (k : Nat) (m : Mat) (jf : Fin (k + 3)) :
    toMat (k + 2) (minorData (k + 3) (k + 3) (jf : Nat) m)
      = (toMat (k + 3) m).submatrix Fin.succ jf.succAbove := by
  funext i l
  show entry (minorData (k + 3) (k + 3) (jf : Nat) m) i l
    = entry m ((Fin.succ i : Fin (k + 3)) : Nat) ((jf.succAbove l : Fin (k + 3)) : Nat)
  rw [entry_minorData k (jf : Nat) m jf.isLt i l i.isLt l.isLt]
  rw [coe_succAbove k jf l, Fin.val_succ]

theorem detExpand_eq_det : ∀ (n : Nat), 0 < n → ∀ (m : Mat), m.length = n →
    RowsLen m n → mops.detExpand n n m = (toMat n m).det := by
  intro n
  induction n using Nat.strong_induction_on with
  | _ n ih =>
    match n with
    | 0 => intro h0; omega
    | 1 => intro _ m _ _; exact detExpand_one m
    | 2 => intro _ m _ _; exact detExpand_two m
    | (k + 3) =>
      intro _ m hlen hrect
      rw [detExpand_succ, Matrix.det_succ_row_zero]
      rw [sum_list_range, ← Fin.sum_univ_eq_sum_range]
      refine Finset.sum_congr rfl ?_
      intro jf _
      rw [sign_eq_neg_one_pow]
      have hminor : mops.detExpand (k + 2) (k + 3 - 1) (minorData (k + 3) (k + 3) (jf : Nat) m)
          = (toMat (k + 2) (minorData (k + 3) (k + 3) (jf : Nat) m)).det := by
        have h32 : k + 3 - 1 = k + 2 := by omega
        rw [h32]
        exact ih (k + 2) (by omega) (by omega)
          (minorData (k + 3) (k + 3) (jf : Nat) m)
          (length_minorData k (jf : Nat) m jf.isLt)
          (rowsLen_minorData k (jf : Nat) m jf.isLt)
      rw [hminor, toMat_minorData k m jf]
      rfl

def tempAt (a : Mat) : Nat → Mat
  | 0 => a
  | i + 1 => mlib.detStepTemp i (tempAt a i)

def pivotAt (a : Mat) (i : Nat) : ℚ := entry (tempAt a i) i i

/-- Rectangular `n × n` shape, phrased positionally. -/
def RectN (m : Mat) (n : Nat) : Prop :=
  m.length = n ∧ ∀ k, k < n → (getRow m k).length = n

theorem rectN_detStepTemp {m : Mat} {n : Nat} (h : RectN m n) (i : Nat) :
    RectN (mlib.detStepTemp i m) n := by
  obtain ⟨hlen, hrows⟩ := h
  refine ⟨by rw [length_detStepTemp, hlen], ?_⟩
  intro k hk
  by_cases hik : i < k
  · rw [detStepTemp_row_gt m hik (by omega), length_idxMap]
    exact hrows k hk
  · rw [detStepTemp_row_le m hik]
    exact hrows k hk

theorem rectN_tempAt {a : Mat} {n : Nat} (h : RectN a n) : ∀ i, RectN (tempAt a i) n := by
  intro i
  induction i with
  | zero => exact h
  | succ i ihs => exact rectN_detStepTemp ihs i

theorem tempAt_row_stable {a : Mat} {k : Nat} :
    ∀ {i i' : Nat}, i ≤ i' → k ≤ i → getRow (tempAt a i') k = getRow (tempAt a i) k := by
  intro i i'
  induction i' with
  | zero =>
    intro h _
    rw [Nat.le_zero.mp h]
  | succ i' ihs =>
    intro h hk
    rcases Nat.lt_or_ge i (i' + 1) with hlt | hge
    · have hii : i ≤ i' := by omega
      show getRow (mlib.detStepTemp i' (tempAt a i')) k = _
      rw [detStepTemp_row_le (tempAt a i') (by omega)]
      exact ihs hii hk
    · have : i = i' + 1 := by omega
      rw [this]

theorem zeros_detStepTemp {i : Nat} {temp : Mat}
    (hz : ∀ k j, i ≤ k → j < i → entry temp k j = 0)
    (hpne : entry temp i i ≠ 0) :
    ∀ k j, i + 1 ≤ k → j < i + 1 → entry (mlib.detStepTemp i temp) k j = 0 := by
  intro k j hk hj
  have hik : i < k := by omega
  by_cases hklt : k < temp.length
  · show (getRow (mlib.detStepTemp i temp) k).getD j 0 = 0
    rw [detStepTemp_row_gt temp hik hklt, getD_idxMap]
    by_cases hjl : j < (getRow temp k).length
    · rw [if_pos hjl]
      rcases Nat.lt_or_ge j i with hji | hge
      · rw [if_neg (by omega)]
        exact hz k j (by omega) hji
      · have hji : j = i := by omega
        subst hji
        rw [if_pos le_rfl]
        rw [show (getRow temp j).getD j 0 = entry temp j j from rfl]
        rw [div_mul_cancel₀ _ hpne]
        exact sub_self _
    · rw [if_neg hjl]
  · show (getRow (mlib.detStepTemp i temp) k).getD j 0 = 0
    rw [getRow_ge (by rw [length_detStepTemp]; omega)]
    rfl

theorem detHits_false_pivots {a : Mat} :
    ∀ (fuel i : Nat), mlib.detHits fuel i (tempAt a i) = false →
      ∀ j, i ≤ j → j < i + fuel → ¬ fabs (pivotAt a j) < tol := by
  intro fuel
  induction fuel with
  | zero => intro i _ j _ _; omega
  | succ fuel ih =>
    intro i h j hij hjf
    simp only [mlib.detHits] at h
    by_cases hp : fabs (entry (tempAt a i) i i) < tol
    · rw [if_pos hp] at h
      exact absurd h (by simp)
    · rw [if_neg hp] at h
      rcases Nat.eq_or_lt_of_le hij with heq | hlt
      · subst heq
        exact hp
      · exact ih (i + 1) h j hlt (by omega)

theorem zeros_tempAt {a : Mat} :
    ∀ (i : Nat), (∀ j, j < i → ¬ fabs (pivotAt a j) < tol) →
      ∀ k j, i ≤ k → j < i → entry (tempAt a i) k j = 0 := by
  intro i
  induction i with
  | zero => intro _ k j _ hj; omega
  | succ i ih =>
    intro hpiv
    exact zeros_detStepTemp
      (ih (fun j hj => hpiv j (by omega)))
      (ne_zero_of_not_small (hpiv i (by omega)))

theorem detLoop_prod {a : Mat} :
    ∀ (fuel i : Nat) (s : mlib.DetState) (d : ℚ), s.temp = tempAt a i →
      (∀ j, i ≤ j → j < i + fuel → ¬ fabs (pivotAt a j) < tol) →
      (mlib.detLoop fuel i s d).1 = d * ∏ j ∈ Finset.Ico i (i + fuel), pivotAt a j := by
  intro fuel
  induction fuel with
  | zero =>
    intro i s d _ _
    simp [mlib.detLoop]
  | succ fuel ih =>
    intro i s d hst hpiv
    simp only [mlib.detLoop]
    have hpq : entry s.temp i i = pivotAt a i := by rw [hst]; rfl
    rw [hpq, if_neg (hpiv i le_rfl (by omega))]
    have hstep : (mlib.detStep i s).temp = tempAt a (i + 1) := by
      show mlib.detStepTemp i s.temp = _
      rw [hst]
      rfl
    rw [ih (i + 1) (mlib.detStep i s) (d * pivotAt a i) hstep
      (fun j hj hjf => hpiv j (by omega) (by omega))]
    rw [Finset.prod_eq_prod_Ico_succ_bot (by omega : i < i + (fuel + 1)) (pivotAt a)]
    have harith : i + 1 + fuel = i + (fuel + 1) := by omega
    rw [harith]
    ring

theorem det_rowOps {n : Nat} (M : Matrix (Fin n) (Fin n) ℚ) (p : Fin n) (c : Fin n → ℚ) :
    ∀ (s : Finset (Fin n)), p ∉ s →
      Matrix.det (Matrix.of fun k l => if k ∈ s then M k l - c k * M p l else M k l)
        = M.det := by
  intro s
  induction s using Finset.induction_on with
  | empty =>
    intro _
    have h0 : (Matrix.of fun k l =>
        if k ∈ (∅ : Finset (Fin n)) then M k l - c k * M p l else M k l) = M := by
      funext k l
      simp
    rw [h0]
  | @insert b s hbs ih =>
    intro hp
    have hpb : p ≠ b := fun h => hp (h ▸ Finset.mem_insert_self b s)
    have hps : p ∉ s := fun h => hp (Finset.mem_insert_of_mem h)
    have hrw : (Matrix.of fun k l => if k ∈ insert b s then M k l - c k * M p l else M k l)
        = Matrix.updateRow
            (Matrix.of fun k l => if k ∈ s then M k l - c k * M p l else M k l) b
            ((Matrix.of fun k l => if k ∈ s then M k l - c k * M p l else M k l) b
              + (-(c b)) • (Matrix.of fun k l =>
                  if k ∈ s then M k l - c k * M p l else M k l) p) := by
      funext k l
      by_cases hkb : k = b
      · subst hkb
        rw [Matrix.updateRow_self]
        simp only [Matrix.of_apply, Finset.mem_insert, Pi.add_apply, Pi.smul_apply,
          smul_eq_mul, true_or, if_true]
        rw [if_neg hbs, if_neg hps]
        ring
      · rw [Matrix.updateRow_ne hkb]
        simp only [Matrix.of_apply, Finset.mem_insert]
        by_cases hks : k ∈ s
        · rw [if_pos (Or.inr hks), if_pos hks]
        · rw [if_neg (by tauto), if_neg hks]
    rw [hrw, Matrix.det_updateRow_add_smul_self _ (Ne.symm hpb) (-(c b)), ih hps]

theorem det_toMat_detStepTemp {n : Nat} {temp : Mat} {i : Nat} (hin : i < n)
    (hR : RectN temp n) (hz : ∀ j, j < i → entry temp i j = 0) :
    (toMat n (mlib.detStepTemp i temp)).det = (toMat n temp).det := by
  have hA : toMat n (mlib.detStepTemp i temp)
      = Matrix.of fun k l => if k ∈ Finset.filter (fun k : Fin n => i < (k : Nat)) Finset.univ
          then toMat n temp k l
            - (entry temp (k : Nat) i / entry temp i i) * toMat n temp ⟨i, hin⟩ l
          else toMat n temp k l := by
    funext k l
    simp only [Matrix.of_apply, Finset.mem_filter, Finset.mem_univ, true_and]
    by_cases hik : i < (k : Nat)
    · rw [if_pos hik]
      show entry (mlib.detStepTemp i temp) (k : Nat) (l : Nat) = _
      unfold entry
      rw [detStepTemp_row_gt temp hik (by rw [hR.1]; exact k.isLt)]
      rw [getD_idxMap]
      rw [if_pos (by rw [hR.2 (k : Nat) k.isLt]; exact l.isLt)]
      by_cases hil : i ≤ (l : Nat)
      · rw [if_pos hil]
        rfl
      · rw [if_neg hil]
        have hz' : (getRow temp i).getD (l : Nat) 0 = 0 := hz (l : Nat) (by omega)
        show (getRow temp (k : Nat)).getD (l : Nat) 0
          = (getRow temp (k : Nat)).getD (l : Nat) 0
            - entry temp (k : Nat) i / entry temp i i * (getRow temp i).getD (l : Nat) 0
        rw [hz']
        ring
    · rw [if_neg hik]
      show entry (mlib.detStepTemp i temp) (k : Nat) (l : Nat) = _
      unfold entry
      rw [detStepTemp_row_le temp hik]
      rfl
  rw [hA]
  exact det_rowOps (toMat n temp) ⟨i, hin⟩
    (fun k => entry temp (k : Nat) i / entry temp i i) _
    (by simp)

theorem det_toMat_tempAt {a : Mat} {n : Nat} (hR : RectN a n)
    (hpiv : ∀ j, j < n → ¬ fabs (pivotAt a j) < tol) :
    ∀ i, i ≤ n → (toMat n (tempAt a i)).det = (toMat n a).det := by
  intro i
  induction i with
  | zero => intro _; rfl
  | succ i ihs =>
    intro hi
    show (toMat n (mlib.detStepTemp i (tempAt a i))).det = _
    rw [det_toMat_detStepTemp (by omega) (rectN_tempAt hR i)
      (fun j hj => zeros_tempAt i (fun j' hj' => hpiv j' (by omega)) i j le_rfl hj)]
    exact ihs (by omega)

theorem diag_tempAt_final {a : Mat} {n i : Nat} (hi : i < n) :
    entry (tempAt a n) i i = pivotAt a i := by
  show (getRow (tempAt a n) i).getD i 0 = pivotAt a i
  rw [tempAt_row_stable (by omega : i ≤ n) (le_refl i)]
  rfl

theorem detLoop_eq_det {a : Mat} (hR : RectN a a.length)
    (hnohit : mlib.detHits a.length 0 a = false) :
    (mlib.detLoop a.length 0 { caller := a, temp := a } 1).1 = (toMat a.length a).det := by
  have hpiv : ∀ j, j < a.length → ¬ fabs (pivotAt a j) < tol :=
    fun j hj => detHits_false_pivots a.length 0 hnohit j (by omega) (by omega)
  rw [detLoop_prod a.length 0 { caller := a, temp := a } 1 rfl
    (fun j h1 h2 => hpiv j (by omega))]
  rw [one_mul]
  have hut : (toMat a.length (tempAt a a.length)).BlockTriangular id := by
    intro k j hjk
    show entry (tempAt a a.length) (k : Nat) (j : Nat) = 0
    show (getRow (tempAt a a.length) (k : Nat)).getD (j : Nat) 0 = 0
    rw [tempAt_row_stable (by omega : (k : Nat) ≤ a.length) (le_refl (k : Nat))]
    exact zeros_tempAt (k : Nat) (fun j' hj' => hpiv j' (by omega)) (k : Nat) (j : Nat)
      le_rfl hjk
  rw [Nat.zero_add, ← Finset.range_eq_Ico, ← Fin.prod_univ_eq_prod_range]
  have hdiag : ∀ i : Fin a.length, pivotAt a (i : Nat)
      = toMat a.length (tempAt a a.length) i i :=
    fun i => (diag_tempAt_final i.isLt).symm
  rw [Finset.prod_congr rfl (fun i _ => hdiag i)]
  rw [← Matrix.det_of_upperTriangular hut]
  exact det_toMat_tempAt hR hpiv a.length le_rfl

/-- C2 (amended): the elimination-based `determinant` of `matrix.cpp` and
the cofactor-expansion determinant of `matrix_ops.cpp` return equal values
on every square rectangular matrix on which the fixed-position elimination
encounters no pivot of magnitude below `1e-10`; when it does, `matrix.cpp`
returns `0.0` even where the cofactor determinant is nonzero. -/
theorem c2_det_agree (a : Mat) (ha : a ≠ []) (hsq : a.length = cols0 a)
    (hrect : RowsLen a a.length) (hnohit : mlib.detHits a.length 0 a = false) :
    mlib.determinant a = (mops.ofList a).determinant := by
  have hn : 0 < a.length := List.length_pos.mpr ha
  have hR : RectN a a.length := by
    refine ⟨rfl, ?_⟩
    intro k hk
    have hmem : getRow a k ∈ a := by
      unfold getRow
      rw [List.getD_eq_getElem?_getD, List.getElem?_eq_getElem hk]
      exact List.getElem_mem hk
    exact hrect _ hmem
  unfold mlib.determinant
  rw [if_neg (by simp [ha, hsq])]
  unfold mops.Matrix.determinant mops.ofList
  rw [if_neg (by simp [hsq])]
  refine congrArg Except.ok ?_
  rw [detLoop_eq_det hR hnohit]
  show (toMat a.length a).det = mops.detExpand a.length (cols0 a) a
  rw [show cols0 a = a.length from hsq.symm]
  exact (detExpand_eq_det a.length hn a rfl hrect).symm

/-- C2 counterexample: on the square matrix `[[0,1],[1,0]]` the
elimination determinant of `matrix.cpp` returns `0.0` (zero fixed pivot)
while the cofactor determinant of `matrix_ops.cpp` returns `-1` — the two
files do not return equal values on every square matrix. -/
theorem c2_counterexample :
    mlib.determinant [[0,1],[1,0]] = Except.ok 0 ∧
    (mops.ofList [[0,1],[1,0]]).determinant = Except.ok (-1) ∧
    mlib.determinant [[0,1],[1,0]] ≠ (mops.ofList [[0,1],[1,0]]).determinant := by
  with_unfolding_all decide

/-- C2 witness: `c2_det_agree` on `[[1,2],[3,4]]`, where both sides give
`-2`. -/
theorem c2_witness :
    mlib.determinant [[1,2],[3,4]] = (mops.ofList [[1,2],[3,4]]).determinant :=
  c2_det_agree [[1,2],[3,4]] (by simp) (by decide)
    (by intro row hrow; simp at hrow; rcases hrow with h | h <;> simp [h])
    (by with_unfolding_all decide)
